import Mathlib

set_option maxHeartbeats 1000000

namespace BevyPlayground

/-! Shallow embedding of the bevy_playground repository.

The repository is a set of Bevy plugins: a keybinding remapper
(src/keybind.rs), a free-fly controller (src/free_control.rs and the older
copy src/free_controllable.rs), a fixed-timestep driver (src/fixed_time.rs)
and a cursor-grab system (src/cursor_grab.rs).  Machine floats of the source
(f32/f64 widths, positions, speeds, instants) are modelled as rationals;
key codes and mouse buttons are modelled as type parameters K and M, since
the code is generic over which concrete keys exist. -/

/-- Model of bevy's Input<T> resource: the three sets pressed, just_pressed and
just_released, each represented by its characteristic function. -/
structure Input (T : Type) where
  pressed : T → Bool
  just_pressed : T → Bool
  just_released : T → Bool

namespace Input

variable {T : Type} [DecidableEq T]

/-- Bevy Input::press: insert into pressed; when the element is newly inserted,
also insert it into just_pressed. -/
def press (s : Input T) (t : T) : Input T :=
  if s.pressed t then s
  else
    { pressed := fun x => if x = t then true else s.pressed x
      just_pressed := fun x => if x = t then true else s.just_pressed x
      just_released := s.just_released }

/-- Bevy Input::release: remove from pressed; when the element was present,
insert it into just_released. -/
def release (s : Input T) (t : T) : Input T :=
  if s.pressed t then
    { pressed := fun x => if x = t then false else s.pressed x
      just_pressed := s.just_pressed
      just_released := fun x => if x = t then true else s.just_released x }
  else s

/-- Bevy Input::clear: clears just_pressed and just_released, keeping pressed. -/
def clear (s : Input T) : Input T :=
  { pressed := s.pressed
    just_pressed := fun _ => false
    just_released := fun _ => false }

/-- Bevy Input::released: the element is not in the pressed set. -/
def released (s : Input T) (t : T) : Bool := !s.pressed t

theorem press_pressed (s : Input T) (t x : T) :
    (s.press t).pressed x = if x = t then true else s.pressed x := by
  unfold press
  split
  · rename_i h
    by_cases hx : x = t <;> simp [hx, h]
  · rfl

theorem press_just_pressed (s : Input T) (t x : T) :
    (s.press t).just_pressed x =
      if x = t ∧ s.pressed t = false then true else s.just_pressed x := by
  unfold press
  split
  · rename_i h
    simp [h]
  · rename_i h
    simp only [Bool.not_eq_true] at h
    by_cases hx : x = t <;> simp [hx, h]

theorem press_just_released (s : Input T) (t x : T) :
    (s.press t).just_released x = s.just_released x := by
  unfold press
  split <;> rfl

theorem release_pressed (s : Input T) (t x : T) :
    (s.release t).pressed x = if x = t then false else s.pressed x := by
  unfold release
  split
  · rfl
  · rename_i h
    simp only [Bool.not_eq_true] at h
    by_cases hx : x = t <;> simp [hx, h]

theorem release_just_pressed (s : Input T) (t x : T) :
    (s.release t).just_pressed x = s.just_pressed x := by
  unfold release
  split <;> rfl

theorem release_just_released (s : Input T) (t x : T) :
    (s.release t).just_released x =
      if x = t ∧ s.pressed t = true then true else s.just_released x := by
  unfold release
  split
  · rename_i h
    by_cases hx : x = t <;> simp [hx, h]
  · rename_i h
    simp only [Bool.not_eq_true] at h
    by_cases hx : x = t <;> simp [hx, h]

end Input

/-- Model of the RawInput enum of src/keybind.rs, generic over the engine's
key-code and mouse-button types. -/
inductive RawInput (K M : Type) where
  | keyCode : K → RawInput K M
  | mouseButton : M → RawInput K M
deriving DecidableEq

variable {K M T : Type}

/-- Whether a raw input is currently pressed, reading the matching raw Input set
exactly the way the match in map_keybinds does. -/
def rawPressed (key_codes : Input K) (mouse_buttons : Input M) : RawInput K M → Bool
  | RawInput.keyCode k => key_codes.pressed k
  | RawInput.mouseButton m => mouse_buttons.pressed m

/-- Whether a raw input was just released, reading the matching raw Input set
exactly the way the match in map_keybinds does. -/
def rawJustReleased (key_codes : Input K) (mouse_buttons : Input M) : RawInput K M → Bool
  | RawInput.keyCode k => key_codes.just_released k
  | RawInput.mouseButton m => mouse_buttons.just_released m

/-- One iteration of the loop in map_keybinds, processing a single
(raw_input, bind) entry of the KeyBindings map. -/
def mapKeybindsStep [DecidableEq T] (key_codes : Input K) (mouse_buttons : Input M)
    (binds : Input T) (entry : RawInput K M × T) : Input T :=
  match entry with
  | (RawInput.keyCode key_code, bind) =>
    let binds1 := if key_codes.pressed key_code then binds.press bind else binds
    if key_codes.just_released key_code then binds1.release bind else binds1
  | (RawInput.mouseButton mouse_button, bind) =>
    let binds1 := if mouse_buttons.pressed mouse_button then binds.press bind else binds
    if mouse_buttons.just_released mouse_button then binds1.release bind else binds1

/-- The system map_keybinds of src/keybind.rs: clear the per-frame sets of
Input<T> and fold the loop body over the entries of the KeyBindings HashMap,
given here as a list in some iteration order. -/
def map_keybinds [DecidableEq T] (key_codes : Input K) (mouse_buttons : Input M)
    (key_bindings : List (RawInput K M × T)) (binds : Input T) : Input T :=
  key_bindings.foldl (mapKeybindsStep key_codes mouse_buttons) binds.clear

theorem mapKeybindsStep_eq [DecidableEq T] (kc : Input K) (mb : Input M)
    (binds : Input T) (r : RawInput K M) (b : T) :
    mapKeybindsStep kc mb binds (r, b) =
      (if rawJustReleased kc mb r
        then (if rawPressed kc mb r then binds.press b else binds).release b
        else (if rawPressed kc mb r then binds.press b else binds)) := by
  cases r <;> rfl

/-- Whether some entry of the binding list binds a currently pressed raw input
to the action t. -/
def hasPressedBind [DecidableEq T] (kc : Input K) (mb : Input M)
    (bs : List (RawInput K M × T)) (t : T) : Bool :=
  bs.any fun p => decide (p.2 = t) && rawPressed kc mb p.1

/-- Whether some entry of the binding list binds a just-released raw input to
the action t. -/
def hasJustReleasedBind [DecidableEq T] (kc : Input K) (mb : Input M)
    (bs : List (RawInput K M × T)) (t : T) : Bool :=
  bs.any fun p => decide (p.2 = t) && rawJustReleased kc mb p.1

theorem hasPressedBind_cons [DecidableEq T] (kc : Input K) (mb : Input M)
    (p : RawInput K M × T) (rest : List (RawInput K M × T)) (t : T) :
    hasPressedBind kc mb (p :: rest) t =
      ((decide (p.2 = t) && rawPressed kc mb p.1) || hasPressedBind kc mb rest t) := by
  simp [hasPressedBind]

theorem hasJustReleasedBind_cons [DecidableEq T] (kc : Input K) (mb : Input M)
    (p : RawInput K M × T) (rest : List (RawInput K M × T)) (t : T) :
    hasJustReleasedBind kc mb (p :: rest) t =
      ((decide (p.2 = t) && rawJustReleased kc mb p.1) || hasJustReleasedBind kc mb rest t) := by
  simp [hasJustReleasedBind]

theorem step_eq_press [DecidableEq T] (kc : Input K) (mb : Input M)
    (acc : Input T) (r : RawInput K M) (b : T)
    (hp : rawPressed kc mb r = true) (hr : rawJustReleased kc mb r = false) :
    mapKeybindsStep kc mb acc (r, b) = acc.press b := by
  rw [mapKeybindsStep_eq, hp, hr]
  simp

theorem step_eq_release [DecidableEq T] (kc : Input K) (mb : Input M)
    (acc : Input T) (r : RawInput K M) (b : T)
    (hp : rawPressed kc mb r = false) (hr : rawJustReleased kc mb r = true) :
    mapKeybindsStep kc mb acc (r, b) = acc.release b := by
  rw [mapKeybindsStep_eq, hp, hr]
  simp

theorem step_eq_press_release [DecidableEq T] (kc : Input K) (mb : Input M)
    (acc : Input T) (r : RawInput K M) (b : T)
    (hp : rawPressed kc mb r = true) (hr : rawJustReleased kc mb r = true) :
    mapKeybindsStep kc mb acc (r, b) = (acc.press b).release b := by
  rw [mapKeybindsStep_eq, hp, hr]
  simp

theorem step_eq_id [DecidableEq T] (kc : Input K) (mb : Input M)
    (acc : Input T) (r : RawInput K M) (b : T)
    (hp : rawPressed kc mb r = false) (hr : rawJustReleased kc mb r = false) :
    mapKeybindsStep kc mb acc (r, b) = acc := by
  rw [mapKeybindsStep_eq, hp, hr]
  simp

/-- Characterization of the pressed set after folding the map_keybinds loop body
over a binding list, starting from an arbitrary accumulator, provided no raw
input bound to t is pressed while another raw input bound to t is just
released. -/
theorem foldl_step_pressed [DecidableEq T] (kc : Input K) (mb : Input M)
    (bs : List (RawInput K M × T)) (t : T) (acc : Input T)
    (h : ¬(hasPressedBind kc mb bs t = true ∧ hasJustReleasedBind kc mb bs t = true)) :
    (bs.foldl (mapKeybindsStep kc mb) acc).pressed t =
      (if hasPressedBind kc mb bs t then true
       else if hasJustReleasedBind kc mb bs t then false
       else acc.pressed t) := by
  induction bs generalizing acc with
  | nil => simp [hasPressedBind, hasJustReleasedBind]
  | cons p rest ih =>
    obtain ⟨r, b⟩ := p
    rw [hasPressedBind_cons, hasJustReleasedBind_cons] at h ⊢
    rw [List.foldl_cons]
    by_cases hb : b = t
    · subst hb
      cases hp : rawPressed kc mb r with
      | true =>
        cases hr : rawJustReleased kc mb r with
        | true => exact absurd ⟨by simp [hp], by simp [hr]⟩ h
        | false =>
          have hR : hasJustReleasedBind kc mb rest b = false := by
            cases hR0 : hasJustReleasedBind kc mb rest b
            · rfl
            · exact absurd ⟨by simp [hp], by simp [hR0]⟩ h
          rw [step_eq_press kc mb acc r b hp hr]
          rw [ih (acc.press b) (by simp [hR])]
          simp [hp, hr, hR, Input.press_pressed]
      | false =>
        cases hr : rawJustReleased kc mb r with
        | true =>
          have hP : hasPressedBind kc mb rest b = false := by
            cases hP0 : hasPressedBind kc mb rest b
            · rfl
            · exact absurd ⟨by simp [hP0], by simp [hr]⟩ h
          rw [step_eq_release kc mb acc r b hp hr]
          rw [ih (acc.release b) (by simp [hP])]
          simp [hp, hr, hP, Input.release_pressed]
        | false =>
          rw [step_eq_id kc mb acc r b hp hr]
          rw [ih acc (fun hc => h ⟨by simp [hc.1], by simp [hc.2]⟩)]
          simp [hp, hr]
    · have h' : ¬(hasPressedBind kc mb rest t = true ∧
          hasJustReleasedBind kc mb rest t = true) :=
        fun hc => h ⟨by simp [hc.1], by simp [hc.2]⟩
      have hstep : (mapKeybindsStep kc mb acc (r, b)).pressed t = acc.pressed t := by
        rw [mapKeybindsStep_eq]
        split <;> split <;>
          simp [Input.release_pressed, Input.press_pressed, Ne.symm hb]
      rw [ih _ h', hstep]
      simp [hb]

/-- Characterization of the just_pressed set after folding the map_keybinds
loop body over a binding list, under the same no-conflict condition. -/
theorem foldl_step_just_pressed [DecidableEq T] (kc : Input K) (mb : Input M)
    (bs : List (RawInput K M × T)) (t : T) (acc : Input T)
    (h : ¬(hasPressedBind kc mb bs t = true ∧ hasJustReleasedBind kc mb bs t = true)) :
    (bs.foldl (mapKeybindsStep kc mb) acc).just_pressed t =
      (acc.just_pressed t || (hasPressedBind kc mb bs t && !acc.pressed t)) := by
  induction bs generalizing acc with
  | nil => simp [hasPressedBind]
  | cons p rest ih =>
    obtain ⟨r, b⟩ := p
    rw [hasPressedBind_cons, hasJustReleasedBind_cons] at h
    rw [hasPressedBind_cons]
    rw [List.foldl_cons]
    by_cases hb : b = t
    · subst hb
      cases hp : rawPressed kc mb r with
      | true =>
        cases hr : rawJustReleased kc mb r with
        | true => exact absurd ⟨by simp [hp], by simp [hr]⟩ h
        | false =>
          have hR : hasJustReleasedBind kc mb rest b = false := by
            cases hR0 : hasJustReleasedBind kc mb rest b
            · rfl
            · exact absurd ⟨by simp [hp], by simp [hR0]⟩ h
          rw [step_eq_press kc mb acc r b hp hr]
          rw [ih (acc.press b) (by simp [hR])]
          rw [Input.press_just_pressed, Input.press_pressed]
          cases hpt : acc.pressed b <;>
            cases hjp : acc.just_pressed b <;>
              simp [hp, hpt, hjp]
      | false =>
        cases hr : rawJustReleased kc mb r with
        | true =>
          have hP : hasPressedBind kc mb rest b = false := by
            cases hP0 : hasPressedBind kc mb rest b
            · rfl
            · exact absurd ⟨by simp [hP0], by simp [hr]⟩ h
          rw [step_eq_release kc mb acc r b hp hr]
          rw [ih (acc.release b) (by simp [hP])]
          rw [Input.release_just_pressed]
          simp [hp, hP]
        | false =>
          rw [step_eq_id kc mb acc r b hp hr]
          rw [ih acc (fun hc => h ⟨by simp [hc.1], by simp [hc.2]⟩)]
          simp [hp]
    · have h' : ¬(hasPressedBind kc mb rest t = true ∧
          hasJustReleasedBind kc mb rest t = true) :=
        fun hc => h ⟨by simp [hc.1], by simp [hc.2]⟩
      have hstep1 : (mapKeybindsStep kc mb acc (r, b)).pressed t = acc.pressed t := by
        rw [mapKeybindsStep_eq]
        split <;> split <;>
          simp [Input.release_pressed, Input.press_pressed, Ne.symm hb]
      have hstep2 : (mapKeybindsStep kc mb acc (r, b)).just_pressed t
          = acc.just_pressed t := by
        rw [mapKeybindsStep_eq]
        split <;> split <;>
          simp [Input.release_just_pressed, Input.press_just_pressed, Ne.symm hb]
      rw [ih _ h', hstep1, hstep2]
      simp [hb]

/-- Characterization of the just_released set after folding the map_keybinds
loop body over a binding list, under the same no-conflict condition. -/
theorem foldl_step_just_released [DecidableEq T] (kc : Input K) (mb : Input M)
    (bs : List (RawInput K M × T)) (t : T) (acc : Input T)
    (h : ¬(hasPressedBind kc mb bs t = true ∧ hasJustReleasedBind kc mb bs t = true)) :
    (bs.foldl (mapKeybindsStep kc mb) acc).just_released t =
      (acc.just_released t || (hasJustReleasedBind kc mb bs t && acc.pressed t)) := by
  induction bs generalizing acc with
  | nil => simp [hasJustReleasedBind]
  | cons p rest ih =>
    obtain ⟨r, b⟩ := p
    rw [hasPressedBind_cons, hasJustReleasedBind_cons] at h
    rw [hasJustReleasedBind_cons]
    rw [List.foldl_cons]
    by_cases hb : b = t
    · subst hb
      cases hp : rawPressed kc mb r with
      | true =>
        cases hr : rawJustReleased kc mb r with
        | true => exact absurd ⟨by simp [hp], by simp [hr]⟩ h
        | false =>
          have hR : hasJustReleasedBind kc mb rest b = false := by
            cases hR0 : hasJustReleasedBind kc mb rest b
            · rfl
            · exact absurd ⟨by simp [hp], by simp [hR0]⟩ h
          rw [step_eq_press kc mb acc r b hp hr]
          rw [ih (acc.press b) (by simp [hR])]
          rw [Input.press_just_released]
          simp [hr, hR]
      | false =>
        cases hr : rawJustReleased kc mb r with
        | true =>
          have hP : hasPressedBind kc mb rest b = false := by
            cases hP0 : hasPressedBind kc mb rest b
            · rfl
            · exact absurd ⟨by simp [hP0], by simp [hr]⟩ h
          rw [step_eq_release kc mb acc r b hp hr]
          rw [ih (acc.release b) (by simp [hP])]
          rw [Input.release_just_released, Input.release_pressed]
          cases hpt : acc.pressed b <;>
            cases hjr : acc.just_released b <;>
              simp [hr, hpt, hjr]
        | false =>
          rw [step_eq_id kc mb acc r b hp hr]
          rw [ih acc (fun hc => h ⟨by simp [hc.1], by simp [hc.2]⟩)]
          simp [hr]
    · have h' : ¬(hasPressedBind kc mb rest t = true ∧
          hasJustReleasedBind kc mb rest t = true) :=
        fun hc => h ⟨by simp [hc.1], by simp [hc.2]⟩
      have hstep1 : (mapKeybindsStep kc mb acc (r, b)).pressed t = acc.pressed t := by
        rw [mapKeybindsStep_eq]
        split <;> split <;>
          simp [Input.release_pressed, Input.press_pressed, Ne.symm hb]
      have hstep3 : (mapKeybindsStep kc mb acc (r, b)).just_released t
          = acc.just_released t := by
        rw [mapKeybindsStep_eq]
        split <;> split <;>
          simp [Input.release_just_released, Input.press_just_released, Ne.symm hb]
      rw [ih _ h', hstep1, hstep3]
      simp [hb]

/-- Pressed set of map_keybinds under the no-conflict condition. -/
theorem map_keybinds_pressed_eq [DecidableEq T] (kc : Input K) (mb : Input M)
    (bs : List (RawInput K M × T)) (binds : Input T) (t : T)
    (h : ¬(hasPressedBind kc mb bs t = true ∧ hasJustReleasedBind kc mb bs t = true)) :
    (map_keybinds kc mb bs binds).pressed t =
      (if hasPressedBind kc mb bs t then true
       else if hasJustReleasedBind kc mb bs t then false
       else binds.pressed t) := by
  unfold map_keybinds
  rw [foldl_step_pressed kc mb bs t binds.clear h]
  rfl

/-- Just_pressed set of map_keybinds under the no-conflict condition. -/
theorem map_keybinds_just_pressed_eq [DecidableEq T] (kc : Input K) (mb : Input M)
    (bs : List (RawInput K M × T)) (binds : Input T) (t : T)
    (h : ¬(hasPressedBind kc mb bs t = true ∧ hasJustReleasedBind kc mb bs t = true)) :
    (map_keybinds kc mb bs binds).just_pressed t =
      (hasPressedBind kc mb bs t && !binds.pressed t) := by
  unfold map_keybinds
  rw [foldl_step_just_pressed kc mb bs t binds.clear h]
  simp [Input.clear]

/-- Just_released set of map_keybinds under the no-conflict condition. -/
theorem map_keybinds_just_released_eq [DecidableEq T] (kc : Input K) (mb : Input M)
    (bs : List (RawInput K M × T)) (binds : Input T) (t : T)
    (h : ¬(hasPressedBind kc mb bs t = true ∧ hasJustReleasedBind kc mb bs t = true)) :
    (map_keybinds kc mb bs binds).just_released t =
      (hasJustReleasedBind kc mb bs t && binds.pressed t) := by
  unfold map_keybinds
  rw [foldl_step_just_released kc mb bs t binds.clear h]
  simp [Input.clear]

/-- When r is the only raw input bound to t, hasPressedBind reduces to whether r
itself is pressed. -/
theorem hasPressedBind_unique [DecidableEq T] (kc : Input K) (mb : Input M)
    (bs : List (RawInput K M × T)) (r : RawInput K M) (t : T)
    (hmem : (r, t) ∈ bs) (honly : ∀ p ∈ bs, p.2 = t → p.1 = r) :
    hasPressedBind kc mb bs t = rawPressed kc mb r := by
  cases hr : rawPressed kc mb r
  · rw [Bool.eq_false_iff]
    intro hc
    unfold hasPressedBind at hc
    rcases List.any_eq_true.mp hc with ⟨p, hp, hcond⟩
    simp only [Bool.and_eq_true] at hcond
    rcases hcond with ⟨h2, h1⟩
    rw [honly p hp (of_decide_eq_true h2)] at h1
    rw [hr] at h1
    exact Bool.false_ne_true h1
  · unfold hasPressedBind
    exact List.any_eq_true.mpr ⟨(r, t), hmem, by simp [hr]⟩

/-- When r is the only raw input bound to t, hasJustReleasedBind reduces to
whether r itself was just released. -/
theorem hasJustReleasedBind_unique [DecidableEq T] (kc : Input K) (mb : Input M)
    (bs : List (RawInput K M × T)) (r : RawInput K M) (t : T)
    (hmem : (r, t) ∈ bs) (honly : ∀ p ∈ bs, p.2 = t → p.1 = r) :
    hasJustReleasedBind kc mb bs t = rawJustReleased kc mb r := by
  cases hr : rawJustReleased kc mb r
  · rw [Bool.eq_false_iff]
    intro hc
    unfold hasJustReleasedBind at hc
    rcases List.any_eq_true.mp hc with ⟨p, hp, hcond⟩
    simp only [Bool.and_eq_true] at hcond
    rcases hcond with ⟨h2, h1⟩
    rw [honly p hp (of_decide_eq_true h2)] at h1
    rw [hr] at h1
    exact Bool.false_ne_true h1
  · unfold hasJustReleasedBind
    exact List.any_eq_true.mpr ⟨(r, t), hmem, by simp [hr]⟩

/-- C1: Debounced edge detection.  For an action t whose only binding is the raw
input r: on the frame where r goes from not pressed to pressed (r pressed now,
not just released, while t was not pressed in Input sub T last frame),
map_keybinds marks t just_pressed and pressed; on a later frame while r stays
held (r pressed, not just released, t already pressed), t is pressed but not
just_pressed; and on a frame where r is not pressed, t is not just_pressed. -/
theorem map_keybinds_debounced_edge_detection [DecidableEq T]
    (kc : Input K) (mb : Input M) (bs : List (RawInput K M × T)) (binds : Input T)
    (r : RawInput K M) (t : T)
    (hmem : (r, t) ∈ bs)
    (honly : ∀ p ∈ bs, p.2 = t → p.1 = r) :
    (rawPressed kc mb r = true → rawJustReleased kc mb r = false →
      binds.pressed t = false →
      (map_keybinds kc mb bs binds).just_pressed t = true ∧
      (map_keybinds kc mb bs binds).pressed t = true) ∧
    (rawPressed kc mb r = true → rawJustReleased kc mb r = false →
      binds.pressed t = true →
      (map_keybinds kc mb bs binds).pressed t = true ∧
      (map_keybinds kc mb bs binds).just_pressed t = false) ∧
    (rawPressed kc mb r = false →
      (map_keybinds kc mb bs binds).just_pressed t = false) := by
  have hPu := hasPressedBind_unique kc mb bs r t hmem honly
  have hRu := hasJustReleasedBind_unique kc mb bs r t hmem honly
  refine ⟨?_, ?_, ?_⟩
  · intro hp hr hb0
    have hnc : ¬(hasPressedBind kc mb bs t = true ∧
        hasJustReleasedBind kc mb bs t = true) := by
      rw [hPu, hRu, hp, hr]
      simp
    constructor
    · rw [map_keybinds_just_pressed_eq kc mb bs binds t hnc, hPu, hp, hb0]
      rfl
    · rw [map_keybinds_pressed_eq kc mb bs binds t hnc, hPu, hp]
      simp
  · intro hp hr hb1
    have hnc : ¬(hasPressedBind kc mb bs t = true ∧
        hasJustReleasedBind kc mb bs t = true) := by
      rw [hPu, hRu, hp, hr]
      simp
    constructor
    · rw [map_keybinds_pressed_eq kc mb bs binds t hnc, hPu, hp]
      simp
    · rw [map_keybinds_just_pressed_eq kc mb bs binds t hnc, hPu, hp, hb1]
      rfl
  · intro hp
    have hnc : ¬(hasPressedBind kc mb bs t = true ∧
        hasJustReleasedBind kc mb bs t = true) := by
      rw [hPu, hp]
      simp
    rw [map_keybinds_just_pressed_eq kc mb bs binds t hnc, hPu, hp]
    rfl

/-- A raw key-code state for witnesses: key true is pressed and just pressed,
nothing is just released. -/
def kcW : Input Bool :=
  { pressed := fun k => k, just_pressed := fun k => k, just_released := fun _ => false }

/-- A raw mouse-button state for witnesses: nothing pressed. -/
def mbW : Input Bool :=
  { pressed := fun _ => false, just_pressed := fun _ => false, just_released := fun _ => false }

/-- A previous-frame semantic state with nothing pressed. -/
def bindsOffW : Input Bool :=
  { pressed := fun _ => false, just_pressed := fun _ => false, just_released := fun _ => false }

/-- A previous-frame semantic state with every action pressed. -/
def bindsOnW : Input Bool :=
  { pressed := fun _ => true, just_pressed := fun _ => false, just_released := fun _ => false }

/-- A binding list with the single entry key true bound to action true. -/
def bsW : List (RawInput Bool Bool × Bool) := [(RawInput.keyCode true, true)]

theorem map_keybinds_debounced_edge_detection_witness :
    (map_keybinds kcW mbW bsW bindsOffW).just_pressed true = true ∧
    (map_keybinds kcW mbW bsW bindsOffW).pressed true = true :=
  (map_keybinds_debounced_edge_detection kcW mbW bsW bindsOffW
    (RawInput.keyCode true) true (by decide) (by decide)).1 rfl rfl rfl

/-- A raw key-code state with key true pressed and key false just released. -/
def kcCex : Input Bool :=
  { pressed := fun k => k, just_pressed := fun _ => false, just_released := fun k => !k }

/-- Two raw inputs bound to the same action true: the pressed key true and the
just-released key false, in this iteration order. -/
def bsCex : List (RawInput Bool Bool × Bool) :=
  [(RawInput.keyCode true, true), (RawInput.keyCode false, true)]

/-- The same binding entries as bsCex in the opposite iteration order. -/
def bsCexRev : List (RawInput Bool Bool × Bool) :=
  [(RawInput.keyCode false, true), (RawInput.keyCode true, true)]

/-- C2 counterexample: the action true is bound to the currently pressed raw key
true, yet after map_keybinds it is not pressed, because a second binding of the
same action to the just-released key false is processed afterwards and releases
it.  This refutes the claim that every action bound to a currently pressed raw
input ends up pressed. -/
theorem map_keybinds_raw_to_semantic_cex :
    (RawInput.keyCode true, true) ∈ bsCex ∧
    kcCex.pressed true = true ∧
    (map_keybinds kcCex mbW bsCex bindsOffW).pressed true = false := by
  refine ⟨by decide, rfl, by decide⟩

/-- C2 (amended): every action bound to a currently pressed raw input and to no
just-released raw input is pressed after map_keybinds; every action bound to a
just-released raw input and to no pressed raw input is released (not pressed)
after map_keybinds. -/
theorem map_keybinds_raw_to_semantic [DecidableEq T] (kc : Input K) (mb : Input M)
    (bs : List (RawInput K M × T)) (binds : Input T) (t : T) :
    (hasPressedBind kc mb bs t = true → hasJustReleasedBind kc mb bs t = false →
      (map_keybinds kc mb bs binds).pressed t = true) ∧
    (hasJustReleasedBind kc mb bs t = true → hasPressedBind kc mb bs t = false →
      (map_keybinds kc mb bs binds).released t = true) := by
  constructor
  · intro hP hR
    rw [map_keybinds_pressed_eq kc mb bs binds t (by simp [hR]), hP]
    rfl
  · intro hR hP
    unfold Input.released
    rw [map_keybinds_pressed_eq kc mb bs binds t (by simp [hP]), hP, hR]
    rfl

/-- A binding list with the single entry key false (just released) bound to
action true. -/
def bsRel : List (RawInput Bool Bool × Bool) := [(RawInput.keyCode false, true)]

theorem map_keybinds_raw_to_semantic_witness :
    (map_keybinds kcW mbW bsW bindsOffW).pressed true = true ∧
    (map_keybinds kcCex mbW bsRel bindsOnW).released true = true :=
  ⟨(map_keybinds_raw_to_semantic kcW mbW bsW bindsOffW true).1 (by decide) (by decide),
   (map_keybinds_raw_to_semantic kcCex mbW bsRel bindsOnW true).2 (by decide) (by decide)⟩

/-- hasPressedBind only depends on the set of entries of the binding list, not
on their order. -/
theorem hasPressedBind_perm [DecidableEq T] (kc : Input K) (mb : Input M)
    {bs1 bs2 : List (RawInput K M × T)} (hperm : bs1.Perm bs2) (t : T) :
    hasPressedBind kc mb bs1 t = hasPressedBind kc mb bs2 t := by
  rw [Bool.eq_iff_iff]
  unfold hasPressedBind
  rw [List.any_eq_true, List.any_eq_true]
  constructor
  · rintro ⟨p, hp, hcond⟩
    exact ⟨p, hperm.mem_iff.mp hp, hcond⟩
  · rintro ⟨p, hp, hcond⟩
    exact ⟨p, hperm.mem_iff.mpr hp, hcond⟩

/-- hasJustReleasedBind only depends on the set of entries of the binding list,
not on their order. -/
theorem hasJustReleasedBind_perm [DecidableEq T] (kc : Input K) (mb : Input M)
    {bs1 bs2 : List (RawInput K M × T)} (hperm : bs1.Perm bs2) (t : T) :
    hasJustReleasedBind kc mb bs1 t = hasJustReleasedBind kc mb bs2 t := by
  rw [Bool.eq_iff_iff]
  unfold hasJustReleasedBind
  rw [List.any_eq_true, List.any_eq_true]
  constructor
  · rintro ⟨p, hp, hcond⟩
    exact ⟨p, hperm.mem_iff.mp hp, hcond⟩
  · rintro ⟨p, hp, hcond⟩
    exact ⟨p, hperm.mem_iff.mpr hp, hcond⟩

/-- C7 counterexample: with the action true bound both to the pressed key true
and to the just-released key false, and with the action held from the previous
frame, the two iteration orders of the same binding entries give different
pressed results, refuting order-independence as claimed. -/
theorem map_keybinds_determinism_cex :
    bsCex.Perm bsCexRev ∧
    (map_keybinds kcCex mbW bsCex bindsOnW).pressed true = false ∧
    (map_keybinds kcCex mbW bsCexRev bindsOnW).pressed true = true := by
  refine ⟨by decide, by decide, by decide⟩

/-- C7 (amended): provided no action is bound both to a currently pressed raw
input and to a just-released raw input, the Input sub T produced by
map_keybinds is the same for any two iteration orders of the same binding
entries: it is a function of the raw input states and the set of bindings
only. -/
theorem map_keybinds_deterministic [DecidableEq T] (kc : Input K) (mb : Input M)
    (bs1 bs2 : List (RawInput K M × T)) (binds : Input T)
    (hperm : bs1.Perm bs2)
    (hnc : ∀ u : T, ¬(hasPressedBind kc mb bs1 u = true ∧
      hasJustReleasedBind kc mb bs1 u = true)) :
    ∀ u : T,
      (map_keybinds kc mb bs1 binds).pressed u
        = (map_keybinds kc mb bs2 binds).pressed u ∧
      (map_keybinds kc mb bs1 binds).just_pressed u
        = (map_keybinds kc mb bs2 binds).just_pressed u ∧
      (map_keybinds kc mb bs1 binds).just_released u
        = (map_keybinds kc mb bs2 binds).just_released u := by
  intro u
  have hnc2 : ¬(hasPressedBind kc mb bs2 u = true ∧
      hasJustReleasedBind kc mb bs2 u = true) := by
    rw [← hasPressedBind_perm kc mb hperm u, ← hasJustReleasedBind_perm kc mb hperm u]
    exact hnc u
  refine ⟨?_, ?_, ?_⟩
  · rw [map_keybinds_pressed_eq kc mb bs1 binds u (hnc u),
      map_keybinds_pressed_eq kc mb bs2 binds u hnc2,
      hasPressedBind_perm kc mb hperm u, hasJustReleasedBind_perm kc mb hperm u]
  · rw [map_keybinds_just_pressed_eq kc mb bs1 binds u (hnc u),
      map_keybinds_just_pressed_eq kc mb bs2 binds u hnc2,
      hasPressedBind_perm kc mb hperm u]
  · rw [map_keybinds_just_released_eq kc mb bs1 binds u (hnc u),
      map_keybinds_just_released_eq kc mb bs2 binds u hnc2,
      hasJustReleasedBind_perm kc mb hperm u]

/-- A conflict-free two-entry binding list, and the same entries swapped. -/
def bsDet1 : List (RawInput Bool Bool × Bool) :=
  [(RawInput.keyCode true, true), (RawInput.keyCode false, false)]

/-- The entries of bsDet1 in the opposite iteration order. -/
def bsDet2 : List (RawInput Bool Bool × Bool) :=
  [(RawInput.keyCode false, false), (RawInput.keyCode true, true)]

theorem map_keybinds_deterministic_witness :
    (map_keybinds kcW mbW bsDet1 bindsOffW).pressed true
      = (map_keybinds kcW mbW bsDet2 bindsOffW).pressed true :=
  (map_keybinds_deterministic kcW mbW bsDet1 bsDet2 bindsOffW
    (by decide) (by decide) true).1

/-- C8: Stale-press persistence: when no raw input bound to t is currently
pressed or just released (in particular when t has no binding at all),
map_keybinds leaves the pressed state of t unchanged from the previous frame;
the clear at the start of the system resets only the just_pressed and
just_released sets. -/
theorem map_keybinds_stale_press [DecidableEq T] (kc : Input K) (mb : Input M)
    (bs : List (RawInput K M × T)) (binds : Input T) (t : T)
    (hP : hasPressedBind kc mb bs t = false)
    (hR : hasJustReleasedBind kc mb bs t = false) :
    (map_keybinds kc mb bs binds).pressed t = binds.pressed t := by
  rw [map_keybinds_pressed_eq kc mb bs binds t (by simp [hP]), hP, hR]
  rfl

theorem map_keybinds_stale_press_witness :
    (map_keybinds kcW mbW bsW bindsOnW).pressed false = bindsOnW.pressed false :=
  map_keybinds_stale_press kcW mbW bsW bindsOnW false (by decide) (by decide)

/-- Model of the KeyBindings resource of src/keybind.rs: the logical contents of
the HashMap from raw inputs to binds, as a partial function. -/
structure KeyBindings (K M T : Type) where
  binds : RawInput K M → Option T

/-- KeyBindings::bind: a HashMap insert, which overwrites any previous binding
of the same raw input. -/
def KeyBindings.bind [DecidableEq K] [DecidableEq M] (kb : KeyBindings K M T)
    (input : RawInput K M) (b : T) : KeyBindings K M T :=
  { binds := fun x => if x = input then some b else kb.binds x }

/-- KeyBindings::clear_bind: a HashMap remove. -/
def KeyBindings.clear_bind [DecidableEq K] [DecidableEq M] (kb : KeyBindings K M T)
    (input : RawInput K M) : KeyBindings K M T :=
  { binds := fun x => if x = input then none else kb.binds x }

/-- KeyBindings::rebind: clear the old binding of the input, then bind it. -/
def KeyBindings.rebind [DecidableEq K] [DecidableEq M] (kb : KeyBindings K M T)
    (input : RawInput K M) (b : T) : KeyBindings K M T :=
  (kb.clear_bind input).bind input b

/-- C9: rebind equals bind: for every KeyBindings map, raw input and bind value,
rebind (clear the old binding, then insert) leaves the binding map in exactly
the same logical state as bind alone, since insertion already overwrites any
previous binding of the same raw input. -/
theorem rebind_eq_bind [DecidableEq K] [DecidableEq M] (kb : KeyBindings K M T)
    (input : RawInput K M) (b : T) :
    kb.rebind input b = kb.bind input b := by
  unfold KeyBindings.rebind KeyBindings.bind KeyBindings.clear_bind
  congr 1
  funext x
  by_cases hx : x = input <;> simp [hx]

/-- Model of the engine Time resource, restricted to what fixed_time_step
reads: last_update is the instant of the previous engine tick (None before the
first update), delta the real time elapsed since then, which fixed_time_step
ignores.  Instants and durations are rationals measured in seconds; the f64
constant Duration::from_secs_f64(1.0 / 60.0) of the source is modelled as the
exact rational 1/60. -/
structure Time where
  last_update : Option ℚ
  delta : ℚ

/-- Model of the engine TimeUpdateStrategy resource. -/
inductive TimeUpdateStrategy where
  | automatic : TimeUpdateStrategy
  | manualInstant : ℚ → TimeUpdateStrategy
  | manualDuration : ℚ → TimeUpdateStrategy
deriving DecidableEq

/-- The system fixed_time_step of src/fixed_time.rs: overwrite the time update
strategy with ManualInstant(last_update + 1/60 s).  The unwrap of last_update
is modelled by Option.map, so the system yields None (a panic in the source)
when Time has no last_update. -/
def fixed_time_step (time : Time) : Option TimeUpdateStrategy :=
  time.last_update.map (fun u => TimeUpdateStrategy.manualInstant (u + 1 / 60))

/-- C3: Fixed timestep: on every frame where Time has a last_update instant,
fixed_time_step sets the time update strategy to ManualInstant(last_update +
1/60 s), so the next engine tick is exactly 1/60 s after the previous one, and
the result does not depend on the real time elapsed. -/
theorem fixed_time_step_manual_instant (time : Time) (u : ℚ)
    (h : time.last_update = some u) :
    fixed_time_step time = some (TimeUpdateStrategy.manualInstant (u + 1 / 60)) ∧
    ∀ d : ℚ, fixed_time_step { time with delta := d } = fixed_time_step time := by
  constructor
  · unfold fixed_time_step
    rw [h]
    rfl
  · intro d
    rfl

theorem fixed_time_step_manual_instant_witness :
    fixed_time_step { last_update := some 1, delta := 5 }
      = some (TimeUpdateStrategy.manualInstant (1 + 1 / 60)) :=
  (fixed_time_step_manual_instant { last_update := some 1, delta := 5 } 1 rfl).1

/-- Model of the engine CursorGrabMode enum. -/
inductive CursorGrabMode where
  | none : CursorGrabMode
  | confined : CursorGrabMode
  | locked : CursorGrabMode
deriving DecidableEq

/-- Model of the engine Window state this repository touches: grab mode, cursor
position, cursor visibility, focus, and size, with positions and sizes as
rationals. -/
structure Window where
  cursor_grab_mode : CursorGrabMode
  cursor_position : ℚ × ℚ
  cursor_visible : Bool
  focused : Bool
  width : ℚ
  height : ℚ
deriving DecidableEq

/-- Model of the CursorGrab resource of src/cursor_grab.rs. -/
inductive CursorGrab where
  | active : CursorGrab
  | inactive : CursorGrab
deriving DecidableEq

/-- The release closure of cursor_grab: grab mode None, cursor centered in the
window, cursor visible. -/
def releaseWindow (w : Window) : Window :=
  { w with cursor_grab_mode := CursorGrabMode.none,
           cursor_position := (w.width / 2, w.height / 2),
           cursor_visible := true }

/-- The grab closure of cursor_grab: grab mode Locked, cursor centered in the
window, cursor hidden. -/
def grabWindow (w : Window) : Window :=
  { w with cursor_grab_mode := CursorGrabMode.locked,
           cursor_position := (w.width / 2, w.height / 2),
           cursor_visible := false }

/-- Model of a WindowFocused event: whether its window id is the primary
window.  The focused flag carried by the event is not read by cursor_grab,
which re-checks the window state instead. -/
structure WindowFocused where
  id_is_primary : Bool

/-- The system cursor_grab of src/cursor_grab.rs; changed models
Res::is_changed() on the CursorGrab resource. -/
def cursor_grab (cg : CursorGrab) (changed : Bool)
    (focus_events : List WindowFocused) (w : Window) : Window :=
  match cg with
  | CursorGrab.active =>
    if changed && w.focused then grabWindow w
    else
      let focus_changed := focus_events.any (fun e => e.id_is_primary)
      if focus_changed then
        if w.focused then grabWindow w else releaseWindow w
      else w
  | CursorGrab.inactive =>
    if changed && decide (w.cursor_grab_mode ≠ CursorGrabMode.none)
      then releaseWindow w
      else w

/-- C4: Cursor grab follows focus: with the CursorGrab resource Active and not
just changed, on receiving a focus event for the primary window, cursor_grab
grabs the cursor (grab mode Locked, cursor centered and hidden) when the
window is focused and releases it (grab mode None, cursor centered and
visible) when it is not; with CursorGrab Inactive the window is never grabbed:
it is left unchanged or released. -/
theorem cursor_grab_follows_focus (changed : Bool)
    (focus_events : List WindowFocused) (w : Window)
    (hev : focus_events.any (fun e => e.id_is_primary) = true) :
    (w.focused = true →
      cursor_grab CursorGrab.active false focus_events w = grabWindow w) ∧
    (w.focused = false →
      cursor_grab CursorGrab.active false focus_events w = releaseWindow w) ∧
    (cursor_grab CursorGrab.inactive changed focus_events w = w ∨
      cursor_grab CursorGrab.inactive changed focus_events w = releaseWindow w) := by
  refine ⟨?_, ?_, ?_⟩
  · intro hf
    simp [cursor_grab, hev, hf]
  · intro hf
    simp [cursor_grab, hev, hf]
  · have hinact : cursor_grab CursorGrab.inactive changed focus_events w =
        (if (changed && decide (w.cursor_grab_mode ≠ CursorGrabMode.none)) = true
          then releaseWindow w else w) := rfl
    rw [hinact]
    split
    · exact Or.inr rfl
    · exact Or.inl rfl

/-- A concrete focused window for witnesses. -/
def wW : Window :=
  { cursor_grab_mode := CursorGrabMode.none, cursor_position := (0, 0),
    cursor_visible := true, focused := true, width := 4, height := 2 }

theorem cursor_grab_follows_focus_witness :
    cursor_grab CursorGrab.active false [WindowFocused.mk true] wW = grabWindow wW :=
  (cursor_grab_follows_focus false [WindowFocused.mk true] wW (by decide)).1 rfl

/-- Model of the FreeControls enum shared by src/free_control.rs and
src/free_controllable.rs; its PhantomData variant is a unit variant here. -/
inductive FreeControls where
  | forward : FreeControls
  | backward : FreeControls
  | left : FreeControls
  | right : FreeControls
  | up : FreeControls
  | down : FreeControls
  | locked : FreeControls
  | unlock : FreeControls
  | phantomData : FreeControls
deriving DecidableEq

/-- FreeControls::to_num, which is textually identical in both source files
(u32 values 0 through 8, far below the u32 modulus). -/
def FreeControls.to_num : FreeControls → ℕ
  | FreeControls.forward => 0
  | FreeControls.backward => 1
  | FreeControls.left => 2
  | FreeControls.right => 3
  | FreeControls.up => 4
  | FreeControls.down => 5
  | FreeControls.locked => 6
  | FreeControls.unlock => 7
  | FreeControls.phantomData => 8

/-- The PartialEq::eq implementation of src/free_control.rs: compare to_num of
the two sides. -/
def freeControlEq (a b : FreeControls) : Bool := decide (a.to_num = b.to_num)

/-- The PartialEq::eq implementation of src/free_controllable.rs: the body is
matches!(self, other).  In that macro, other is an irrefutable binding pattern
rather than a comparison with the parameter, so the match succeeds on every
value of self and the function returns true for every pair of arguments. -/
def freeControllableEq (a _b : FreeControls) : Bool :=
  match a with
  | _ => true

/-- C10: the two PartialEq::eq copies disagree: at the pair
(Forward, Backward) the free_controllable.rs implementation returns true while
the free_control.rs implementation returns false, matching to_num inequality;
the matches!-based implementation is therefore also inconsistent with the Ord
and Hash implementations of its own file, which are built on to_num. -/
theorem free_controls_eq_copies_disagree :
    freeControllableEq FreeControls.forward FreeControls.backward = true ∧
    freeControlEq FreeControls.forward FreeControls.backward = false ∧
    FreeControls.forward.to_num ≠ FreeControls.backward.to_num := by
  refine ⟨rfl, rfl, by decide⟩

/-- Model of glam Vec2 over rationals. -/
structure Vec2 where
  x : ℚ
  y : ℚ
deriving DecidableEq

/-- Componentwise Vec2 addition. -/
def Vec2.add (a b : Vec2) : Vec2 := ⟨a.x + b.x, a.y + b.y⟩

/-- Vec2 scalar multiplication. -/
def Vec2.smul (c : ℚ) (v : Vec2) : Vec2 := ⟨c * v.x, c * v.y⟩

/-- Vec2::ZERO. -/
def Vec2.zero : Vec2 := ⟨0, 0⟩

/-- Vec2::length_squared. -/
def Vec2.length_squared (v : Vec2) : ℚ := v.x * v.x + v.y * v.y

/-- Model of glam Vec3 over rationals. -/
structure Vec3 where
  x : ℚ
  y : ℚ
  z : ℚ
deriving DecidableEq

/-- Componentwise Vec3 addition. -/
def Vec3.add (a b : Vec3) : Vec3 := ⟨a.x + b.x, a.y + b.y, a.z + b.z⟩

/-- Vec3 scalar multiplication. -/
def Vec3.smul (c : ℚ) (v : Vec3) : Vec3 := ⟨c * v.x, c * v.y, c * v.z⟩

/-- Componentwise Vec3 negation. -/
def Vec3.neg (v : Vec3) : Vec3 := ⟨-v.x, -v.y, -v.z⟩

/-- Vec3::ZERO. -/
def Vec3.zero : Vec3 := ⟨0, 0, 0⟩

/-- Vec3 dot product. -/
def Vec3.dot (a b : Vec3) : ℚ := a.x * b.x + a.y * b.y + a.z * b.z

/-- Vec3 cross product. -/
def Vec3.cross (a b : Vec3) : Vec3 :=
  ⟨a.y * b.z - a.z * b.y, a.z * b.x - a.x * b.z, a.x * b.y - a.y * b.x⟩

/-- Model of glam Quat over rationals (fields x, y, z, w). -/
structure Quat where
  x : ℚ
  y : ℚ
  z : ℚ
  w : ℚ
deriving DecidableEq

/-- glam Quat::mul: the Hamilton product. -/
def Quat.mul (a b : Quat) : Quat :=
  ⟨a.w * b.x + a.x * b.w + a.y * b.z - a.z * b.y,
   a.w * b.y - a.x * b.z + a.y * b.w + a.z * b.x,
   a.w * b.z + a.x * b.y - a.y * b.x + a.z * b.w,
   a.w * b.w - a.x * b.x - a.y * b.y - a.z * b.z⟩

/-- glam Quat::mul_vec3: v * (w * w - b.b) + b * (2 (v.b)) + (b x v) * (2 w),
with b the vector part of the quaternion. -/
def Quat.mulVec3 (q : Quat) (v : Vec3) : Vec3 :=
  let b : Vec3 := ⟨q.x, q.y, q.z⟩
  Vec3.add (Vec3.add (Vec3.smul (q.w * q.w - Vec3.dot b b) v)
      (Vec3.smul (2 * Vec3.dot v b) b))
    (Vec3.smul (2 * q.w) (Vec3.cross b v))

/-- Model of bevy Transform restricted to translation and rotation (the scale
field is not read by this repository's systems). -/
structure Transform where
  translation : Vec3
  rotation : Quat
deriving DecidableEq

/-- Transform::local_x: the rotated X axis. -/
def Transform.local_x (t : Transform) : Vec3 := t.rotation.mulVec3 ⟨1, 0, 0⟩

/-- Transform::local_y: the rotated Y axis. -/
def Transform.local_y (t : Transform) : Vec3 := t.rotation.mulVec3 ⟨0, 1, 0⟩

/-- Transform::local_z: the rotated Z axis. -/
def Transform.local_z (t : Transform) : Vec3 := t.rotation.mulVec3 ⟨0, 0, 1⟩

/-- Transform::forward = -local_z. -/
def Transform.forward (t : Transform) : Vec3 := Vec3.neg t.local_z

/-- Transform::back = local_z. -/
def Transform.back (t : Transform) : Vec3 := t.local_z

/-- Transform::left = -local_x. -/
def Transform.left (t : Transform) : Vec3 := Vec3.neg t.local_x

/-- Transform::right = local_x. -/
def Transform.right (t : Transform) : Vec3 := t.local_x

/-- Transform::up = local_y. -/
def Transform.up (t : Transform) : Vec3 := t.local_y

/-- Transform::down = -local_y. -/
def Transform.down (t : Transform) : Vec3 := Vec3.neg t.local_y

/-- The FreeControlConfig resource of src/free_control.rs, speeds as
rationals. -/
structure FreeControlConfig where
  forward_speed : ℚ
  backward_speed : ℚ
  left_speed : ℚ
  right_speed : ℚ
  up_speed : ℚ
  down_speed : ℚ
deriving DecidableEq

/-- The Default of FreeControlConfig: every speed 0.5. -/
def FreeControlConfig.default : FreeControlConfig :=
  ⟨1 / 2, 1 / 2, 1 / 2, 1 / 2, 1 / 2, 1 / 2⟩

/-- Model of a MouseMotion event. -/
structure MouseMotion where
  delta : Vec2

/-- Quat::from_rotation_y(angle) = (0, sin(angle/2), 0, cos(angle/2)); the
half-angle sine and cosine functions hsin and hcos are abstract parameters,
since they are transcendental over the rationals. -/
def fromRotationY (hsin hcos : ℚ → ℚ) (angle : ℚ) : Quat :=
  ⟨0, hsin angle, 0, hcos angle⟩

/-- Quat::from_rotation_x(angle) = (sin(angle/2), 0, 0, cos(angle/2)), with the
same abstract half-angle trigonometric functions. -/
def fromRotationX (hsin hcos : ℚ → ℚ) (angle : ℚ) : Quat :=
  ⟨hsin angle, 0, 0, hcos angle⟩

/-- The sum of the frame's MouseMotion deltas, as accumulated by the loop at
the top of the locked branch of free_controls. -/
def sumDelta (ev_motion : List MouseMotion) : Vec2 :=
  ev_motion.foldl (fun acc m => Vec2.add acc m.delta) Vec2.zero

/-- The rotation update inside free_controls: when the accumulated
rotation_move is nonzero, left-multiply the yaw quaternion (global Y axis,
angle -rotation_move.x / width * TAU) and right-multiply the pitch quaternion
(local X axis, angle -rotation_move.y / height * PI); tau and pi are the f32
constants TAU and PI as abstract rational parameters. -/
def rotStep (hsin hcos : ℚ → ℚ) (tau pi : ℚ) (width height : ℚ)
    (rotation_move : Vec2) (t : Transform) : Transform :=
  if rotation_move.length_squared > 0 then
    let yaw := fromRotationY hsin hcos (-rotation_move.x / width * tau)
    let pitch := fromRotationX hsin hcos (-rotation_move.y / height * pi)
    { t with rotation := (yaw.mul t.rotation).mul pitch }
  else t

/-- The handle closure inside free_controls: when the action is pressed, add
f(transform) * speed to the translation. -/
def handleStep (binds : Input FreeControls) (input : FreeControls)
    (f : Transform → Vec3) (speed : ℚ) (t : Transform) : Transform :=
  if binds.pressed input then
    { t with translation := Vec3.add t.translation (Vec3.smul speed (f t)) }
  else t

/-- The per-entity body of the locked branch of free_controls: the rotation
update followed by the six handle calls in source order. -/
def freeControlEntityStep (hsin hcos : ℚ → ℚ) (tau pi : ℚ)
    (config : FreeControlConfig) (binds : Input FreeControls)
    (width height : ℚ) (rotation_move : Vec2) (t : Transform) : Transform :=
  let t1 := rotStep hsin hcos tau pi width height rotation_move t
  let t2 := handleStep binds FreeControls.forward Transform.forward config.forward_speed t1
  let t3 := handleStep binds FreeControls.backward Transform.back config.backward_speed t2
  let t4 := handleStep binds FreeControls.left Transform.left config.left_speed t3
  let t5 := handleStep binds FreeControls.right Transform.right config.right_speed t4
  let t6 := handleStep binds FreeControls.up Transform.up config.up_speed t5
  handleStep binds FreeControls.down Transform.down config.down_speed t6

/-- The lock/unlock keybind handling at the top of free_controls: on a
just-pressed Locked action with the grab mode not already Locked, lock, center
and hide the cursor; then on a just-pressed Unlock action set the grab mode to
None and show the cursor. -/
def lockUnlockStep (binds : Input FreeControls) (w : Window) : Window :=
  let w1 :=
    if binds.just_pressed FreeControls.locked
        && decide (w.cursor_grab_mode ≠ CursorGrabMode.locked) then
      { w with cursor_grab_mode := CursorGrabMode.locked,
               cursor_position := (w.width / 2, w.height / 2),
               cursor_visible := false }
    else w
  if binds.just_pressed FreeControls.unlock then
    { w1 with cursor_grab_mode := CursorGrabMode.none, cursor_visible := true }
  else w1

/-- The system free_controls of src/free_control.rs, acting on the primary
window and the transforms of all targeted entities. -/
def free_controls (hsin hcos : ℚ → ℚ) (tau pi : ℚ) (w : Window)
    (ev_motion : List MouseMotion) (config : FreeControlConfig)
    (binds : Input FreeControls) (transforms : List Transform) :
    Window × List Transform :=
  if (lockUnlockStep binds w).cursor_grab_mode = CursorGrabMode.locked then
    (lockUnlockStep binds w,
     transforms.map (freeControlEntityStep hsin hcos tau pi config binds
       (lockUnlockStep binds w).width (lockUnlockStep binds w).height
       (Vec2.smul (1 / 2) (sumDelta ev_motion))))
  else (lockUnlockStep binds w, transforms)

theorem Vec3.add_zero_right (v : Vec3) : Vec3.add v Vec3.zero = v := by
  obtain ⟨x, y, z⟩ := v
  unfold Vec3.add Vec3.zero
  simp

theorem Vec3.add_assoc_own (a b c : Vec3) :
    Vec3.add (Vec3.add a b) c = Vec3.add a (Vec3.add b c) := by
  obtain ⟨ax, ay, az⟩ := a
  obtain ⟨bx, by', bz⟩ := b
  obtain ⟨cx, cy, cz⟩ := c
  unfold Vec3.add
  simp [Vec3.mk.injEq]
  refine ⟨by ring, by ring, by ring⟩

theorem Transform.eq_of_fields {a b : Transform}
    (h1 : a.translation = b.translation) (h2 : a.rotation = b.rotation) : a = b := by
  obtain ⟨at', ar⟩ := a
  obtain ⟨bt, br⟩ := b
  simp only at h1 h2
  rw [h1, h2]

theorem forward_rotation_only {a b : Transform} (h : a.rotation = b.rotation) :
    a.forward = b.forward := by
  unfold Transform.forward Transform.local_z
  rw [h]

theorem back_rotation_only {a b : Transform} (h : a.rotation = b.rotation) :
    a.back = b.back := by
  unfold Transform.back Transform.local_z
  rw [h]

theorem left_rotation_only {a b : Transform} (h : a.rotation = b.rotation) :
    a.left = b.left := by
  unfold Transform.left Transform.local_x
  rw [h]

theorem right_rotation_only {a b : Transform} (h : a.rotation = b.rotation) :
    a.right = b.right := by
  unfold Transform.right Transform.local_x
  rw [h]

theorem up_rotation_only {a b : Transform} (h : a.rotation = b.rotation) :
    a.up = b.up := by
  unfold Transform.up Transform.local_y
  rw [h]

theorem down_rotation_only {a b : Transform} (h : a.rotation = b.rotation) :
    a.down = b.down := by
  unfold Transform.down Transform.local_y
  rw [h]

/-- One handle call keeps the rotation, and adds direction times speed to the
translation exactly when the action is pressed; the direction may be read off
any transform with the same rotation. -/
theorem handleStep_spec (binds : Input FreeControls) (input : FreeControls)
    (f : Transform → Vec3) (speed : ℚ) (t' t1 : Transform)
    (hf : ∀ a b : Transform, a.rotation = b.rotation → f a = f b)
    (hrot : t'.rotation = t1.rotation) :
    (handleStep binds input f speed t').rotation = t1.rotation ∧
    (handleStep binds input f speed t').translation =
      Vec3.add t'.translation
        (if binds.pressed input then Vec3.smul speed (f t1) else Vec3.zero) := by
  unfold handleStep
  cases hp : binds.pressed input
  · simp only [Bool.false_eq_true, if_false]
    exact ⟨hrot, (Vec3.add_zero_right t'.translation).symm⟩
  · simp only [if_true]
    exact ⟨hrot, by rw [hf t' t1 hrot]⟩

/-- The total translation contribution of the six movement actions for a
transform: local direction times configured speed, summed over the pressed
actions in source order. -/
def movementDelta (config : FreeControlConfig) (binds : Input FreeControls)
    (t : Transform) : Vec3 :=
  Vec3.add (Vec3.add (Vec3.add (Vec3.add (Vec3.add
    (if binds.pressed FreeControls.forward
      then Vec3.smul config.forward_speed t.forward else Vec3.zero)
    (if binds.pressed FreeControls.backward
      then Vec3.smul config.backward_speed t.back else Vec3.zero))
    (if binds.pressed FreeControls.left
      then Vec3.smul config.left_speed t.left else Vec3.zero))
    (if binds.pressed FreeControls.right
      then Vec3.smul config.right_speed t.right else Vec3.zero))
    (if binds.pressed FreeControls.up
      then Vec3.smul config.up_speed t.up else Vec3.zero))
    (if binds.pressed FreeControls.down
      then Vec3.smul config.down_speed t.down else Vec3.zero)

/-- The per-entity body equals: apply the rotation update, then add the summed
movement delta to the translation. -/
theorem freeControlEntityStep_eq (hsin hcos : ℚ → ℚ) (tau pi : ℚ)
    (config : FreeControlConfig) (binds : Input FreeControls)
    (width height : ℚ) (rm : Vec2) (t : Transform) :
    freeControlEntityStep hsin hcos tau pi config binds width height rm t =
      (let t1 := rotStep hsin hcos tau pi width height rm t
       { t1 with translation := Vec3.add t1.translation (movementDelta config binds t1) }) := by
  unfold freeControlEntityStep
  set t1 := rotStep hsin hcos tau pi width height rm t with ht1
  have h2 := handleStep_spec binds FreeControls.forward Transform.forward
    config.forward_speed t1 t1 (fun a b h => forward_rotation_only h) rfl
  set t2 := handleStep binds FreeControls.forward Transform.forward config.forward_speed t1
    with ht2
  have h3 := handleStep_spec binds FreeControls.backward Transform.back
    config.backward_speed t2 t1 (fun a b h => back_rotation_only h) h2.1
  set t3 := handleStep binds FreeControls.backward Transform.back config.backward_speed t2
    with ht3
  have h4 := handleStep_spec binds FreeControls.left Transform.left
    config.left_speed t3 t1 (fun a b h => left_rotation_only h) h3.1
  set t4 := handleStep binds FreeControls.left Transform.left config.left_speed t3 with ht4
  have h5 := handleStep_spec binds FreeControls.right Transform.right
    config.right_speed t4 t1 (fun a b h => right_rotation_only h) h4.1
  set t5 := handleStep binds FreeControls.right Transform.right config.right_speed t4 with ht5
  have h6 := handleStep_spec binds FreeControls.up Transform.up
    config.up_speed t5 t1 (fun a b h => up_rotation_only h) h5.1
  set t6 := handleStep binds FreeControls.up Transform.up config.up_speed t5 with ht6
  have h7 := handleStep_spec binds FreeControls.down Transform.down
    config.down_speed t6 t1 (fun a b h => down_rotation_only h) h6.1
  apply Transform.eq_of_fields
  · rw [h7.2, h6.2, h5.2, h4.2, h3.2, h2.2]
    unfold movementDelta
    simp only [Vec3.add_assoc_own]
  · exact h7.1

theorem lockUnlockStep_width (binds : Input FreeControls) (w : Window) :
    (lockUnlockStep binds w).width = w.width := by
  unfold lockUnlockStep
  split <;> split <;> rfl

theorem lockUnlockStep_height (binds : Input FreeControls) (w : Window) :
    (lockUnlockStep binds w).height = w.height := by
  unfold lockUnlockStep
  split <;> split <;> rfl

theorem free_controls_fst (hsin hcos : ℚ → ℚ) (tau pi : ℚ) (w : Window)
    (ev : List MouseMotion) (config : FreeControlConfig)
    (binds : Input FreeControls) (ts : List Transform) :
    (free_controls hsin hcos tau pi w ev config binds ts).1 = lockUnlockStep binds w := by
  unfold free_controls
  split <;> rfl

/-- C5: Action-driven movement: while the primary window's cursor grab mode is
Locked (the mode after the lock/unlock keybind handling, which nothing later
in the system changes), every targeted entity's translation is increased, for
each pressed movement action, by the transform's corresponding local direction
vector (forward, back, left, right, up, down) scaled by the matching
FreeControlConfig speed, on top of the frame's mouse-look rotation update;
when the grab mode is not Locked, no transform changes at all. -/
theorem free_controls_movement (hsin hcos : ℚ → ℚ) (tau pi : ℚ) (w : Window)
    (ev : List MouseMotion) (config : FreeControlConfig)
    (binds : Input FreeControls) (ts : List Transform) :
    ((free_controls hsin hcos tau pi w ev config binds ts).1.cursor_grab_mode
        = CursorGrabMode.locked →
      (free_controls hsin hcos tau pi w ev config binds ts).2
        = ts.map (fun t =>
            let t1 := rotStep hsin hcos tau pi w.width w.height
              (Vec2.smul (1 / 2) (sumDelta ev)) t
            { t1 with translation :=
                Vec3.add t1.translation (movementDelta config binds t1) })) ∧
    ((free_controls hsin hcos tau pi w ev config binds ts).1.cursor_grab_mode
        ≠ CursorGrabMode.locked →
      (free_controls hsin hcos tau pi w ev config binds ts).2 = ts) := by
  have hfst := free_controls_fst hsin hcos tau pi w ev config binds ts
  constructor
  · intro hlock
    rw [hfst] at hlock
    unfold free_controls
    rw [if_pos hlock]
    simp only []
    rw [lockUnlockStep_width binds w, lockUnlockStep_height binds w]
    apply congrArg (fun f => List.map f ts)
    funext t
    rw [freeControlEntityStep_eq]
  · intro hne
    rw [hfst] at hne
    unfold free_controls
    rw [if_neg hne]

theorem Vec2.length_squared_pos (v : Vec2) :
    (0 < v.length_squared) ↔ v ≠ Vec2.zero := by
  obtain ⟨x, y⟩ := v
  unfold Vec2.length_squared
  constructor
  · intro h hz
    have hx : x = 0 := congrArg Vec2.x hz
    have hy : y = 0 := congrArg Vec2.y hz
    rw [hx, hy] at h
    norm_num at h
  · intro h
    have hxy : x ≠ 0 ∨ y ≠ 0 := by
      by_contra hc
      push_neg at hc
      exact h (by rw [hc.1, hc.2]; rfl)
    rcases hxy with hx | hy
    · have h1 : 0 < x * x := mul_self_pos.mpr hx
      have h2 : 0 ≤ y * y := mul_self_nonneg y
      linarith
    · have h1 : 0 < y * y := mul_self_pos.mpr hy
      have h2 : 0 ≤ x * x := mul_self_nonneg x
      linarith

theorem Vec2.smul_half_eq_zero (v : Vec2) :
    Vec2.smul (1 / 2) v = Vec2.zero ↔ v = Vec2.zero := by
  obtain ⟨x, y⟩ := v
  unfold Vec2.smul Vec2.zero
  simp only [Vec2.mk.injEq]
  constructor
  · rintro ⟨hx, hy⟩
    field_simp at hx hy
    exact ⟨hx, hy⟩
  · rintro ⟨hx, hy⟩
    rw [hx, hy]
    norm_num

theorem rotStep_rotation_of_ne (hsin hcos : ℚ → ℚ) (tau pi : ℚ)
    (width height : ℚ) (rm : Vec2) (t : Transform) (h : rm ≠ Vec2.zero) :
    (rotStep hsin hcos tau pi width height rm t).rotation =
      ((fromRotationY hsin hcos (-rm.x / width * tau)).mul t.rotation).mul
        (fromRotationX hsin hcos (-rm.y / height * pi)) := by
  unfold rotStep
  rw [if_pos ((Vec2.length_squared_pos rm).mpr h)]

theorem rotStep_rotation_of_zero (hsin hcos : ℚ → ℚ) (tau pi : ℚ)
    (width height : ℚ) (t : Transform) :
    rotStep hsin hcos tau pi width height Vec2.zero t = t := by
  unfold rotStep
  rw [if_neg]
  intro hc
  norm_num [Vec2.length_squared, Vec2.zero] at hc

/-- C6: Mouse-look rotation: while the primary window's cursor grab mode is
Locked and the summed mouse motion delta is nonzero, free_controls replaces
every targeted entity's rotation by yaw * rotation * pitch, with yaw the
quaternion about the global Y axis by angle -(0.5 dx) / width * TAU and pitch
the quaternion about the local X axis by angle -(0.5 dy) / height * PI, for
(dx, dy) the summed delta; with zero summed motion every rotation is
unchanged. -/
theorem free_controls_mouse_look (hsin hcos : ℚ → ℚ) (tau pi : ℚ) (w : Window)
    (ev : List MouseMotion) (config : FreeControlConfig)
    (binds : Input FreeControls) (ts : List Transform)
    (hlock : (free_controls hsin hcos tau pi w ev config binds ts).1.cursor_grab_mode
      = CursorGrabMode.locked) :
    (sumDelta ev ≠ Vec2.zero →
      ((free_controls hsin hcos tau pi w ev config binds ts).2.map Transform.rotation)
        = ts.map (fun t =>
            ((fromRotationY hsin hcos
                (-(1 / 2 * (sumDelta ev).x) / w.width * tau)).mul t.rotation).mul
              (fromRotationX hsin hcos
                (-(1 / 2 * (sumDelta ev).y) / w.height * pi)))) ∧
    (sumDelta ev = Vec2.zero →
      ((free_controls hsin hcos tau pi w ev config binds ts).2.map Transform.rotation)
        = ts.map Transform.rotation) := by
  have hfst := free_controls_fst hsin hcos tau pi w ev config binds ts
  rw [hfst] at hlock
  have hsnd : (free_controls hsin hcos tau pi w ev config binds ts).2
      = ts.map (freeControlEntityStep hsin hcos tau pi config binds w.width w.height
          (Vec2.smul (1 / 2) (sumDelta ev))) := by
    unfold free_controls
    rw [if_pos hlock]
    rw [lockUnlockStep_width binds w, lockUnlockStep_height binds w]
  have hrot : ∀ t : Transform,
      (freeControlEntityStep hsin hcos tau pi config binds w.width w.height
        (Vec2.smul (1 / 2) (sumDelta ev)) t).rotation =
      (rotStep hsin hcos tau pi w.width w.height
        (Vec2.smul (1 / 2) (sumDelta ev)) t).rotation := by
    intro t
    rw [freeControlEntityStep_eq]
  constructor
  · intro hne
    rw [hsnd, List.map_map]
    apply congrArg (fun f => List.map f ts)
    funext t
    have hrm : Vec2.smul (1 / 2) (sumDelta ev) ≠ Vec2.zero := by
      intro hc
      exact hne ((Vec2.smul_half_eq_zero (sumDelta ev)).mp hc)
    have := rotStep_rotation_of_ne hsin hcos tau pi w.width w.height
      (Vec2.smul (1 / 2) (sumDelta ev)) t hrm
    calc (Transform.rotation ∘ freeControlEntityStep hsin hcos tau pi config binds
          w.width w.height (Vec2.smul (1 / 2) (sumDelta ev))) t
        = (rotStep hsin hcos tau pi w.width w.height
            (Vec2.smul (1 / 2) (sumDelta ev)) t).rotation := hrot t
      _ = ((fromRotationY hsin hcos
              (-(1 / 2 * (sumDelta ev).x) / w.width * tau)).mul t.rotation).mul
            (fromRotationX hsin hcos
              (-(1 / 2 * (sumDelta ev).y) / w.height * pi)) := by
          rw [this]
          rfl
  · intro hz
    rw [hsnd, List.map_map]
    apply congrArg (fun f => List.map f ts)
    funext t
    have hrm : Vec2.smul (1 / 2) (sumDelta ev) = Vec2.zero :=
      (Vec2.smul_half_eq_zero (sumDelta ev)).mpr hz
    calc (Transform.rotation ∘ freeControlEntityStep hsin hcos tau pi config binds
          w.width w.height (Vec2.smul (1 / 2) (sumDelta ev))) t
        = (rotStep hsin hcos tau pi w.width w.height
            (Vec2.smul (1 / 2) (sumDelta ev)) t).rotation := hrot t
      _ = t.rotation := by rw [hrm, rotStep_rotation_of_zero]

/-- A semantic action state for witnesses: only Forward is pressed, nothing is
just pressed or just released. -/
def bindsFw : Input FreeControls :=
  { pressed := fun a => decide (a = FreeControls.forward),
    just_pressed := fun _ => false,
    just_released := fun _ => false }

/-- A concrete locked window for witnesses. -/
def wLockedW : Window :=
  { cursor_grab_mode := CursorGrabMode.locked, cursor_position := (0, 0),
    cursor_visible := false, focused := true, width := 2, height := 2 }

/-- The identity transform at the origin. -/
def t0W : Transform := { translation := ⟨0, 0, 0⟩, rotation := ⟨0, 0, 0, 1⟩ }

theorem free_controls_movement_witness :
    (free_controls (fun _ => 0) (fun _ => 1) 6 3 wLockedW []
        FreeControlConfig.default bindsFw [t0W]).2
      = [t0W].map (fun t =>
          let t1 := rotStep (fun _ => 0) (fun _ => 1) 6 3 wLockedW.width wLockedW.height
            (Vec2.smul (1 / 2) (sumDelta [])) t
          { t1 with translation :=
              Vec3.add t1.translation (movementDelta FreeControlConfig.default bindsFw t1) }) :=
  (free_controls_movement (fun _ => 0) (fun _ => 1) 6 3 wLockedW []
    FreeControlConfig.default bindsFw [t0W]).1 (by decide)

theorem free_controls_mouse_look_witness :
    ((free_controls (fun _ => 0) (fun _ => 1) 6 3 wLockedW [MouseMotion.mk ⟨2, 0⟩]
        FreeControlConfig.default bindsFw [t0W]).2.map Transform.rotation)
      = [t0W].map (fun t =>
          ((fromRotationY (fun _ => 0) (fun _ => 1)
              (-(1 / 2 * (sumDelta [MouseMotion.mk ⟨2, 0⟩]).x) / wLockedW.width * 6)).mul
            t.rotation).mul
            (fromRotationX (fun _ => 0) (fun _ => 1)
              (-(1 / 2 * (sumDelta [MouseMotion.mk ⟨2, 0⟩]).y) / wLockedW.height * 3))) :=
  (free_controls_mouse_look (fun _ => 0) (fun _ => 1) 6 3 wLockedW
    [MouseMotion.mk ⟨2, 0⟩] FreeControlConfig.default bindsFw [t0W]
    (by decide)).1 (by norm_num [sumDelta, Vec2.add, Vec2.zero, Vec2.mk.injEq])

end BevyPlayground
